import Mathlib

set_option maxRecDepth 8000

/-!
Verification of the two reusable analysis primitives of the langkit
support code, shallowly embedded from langkit/utils.py:

* the dependency orderer, the generator function topological_sort;
* the type coverage analyzer, class TypeSet with its methods
  TypeSet.include and TypeSet.unmatched_types.

Embedding conventions.  Python sets of hashable identities become Lean
lists queried through membership (the code never relies on iteration
order of a set for its observable results, except inside
unmatched_types where the result is itself a set; there we state set
equalities through List.toFinset).  The generator topological_sort is
embedded as a function returning the list of items it has yielded
together with a Boolean which is false exactly when the generator ends
by raising AssertionError, true when it finishes normally; the yielded
prefix is kept in both cases because a Python consumer observes the
yields before the exception surfaces.
-/

namespace Langkit

/-- One full pass of the for-loop inside topological_sort from
langkit/utils.py.  Given the pending pairs and the provided set, it
returns the items yielded during the pass in their input order, the
pairs appended to remaining_items, and the provided set as it stands
after the pass.  As in the source, an item yielded earlier in the same
pass is already part of provided for the later pairs of that pass.
The Python line converting dependencies to a set only removes
duplicates, which is invisible to the subset test, so pairs keep their
dependency lists. -/
def topoPass {α : Type} [DecidableEq α] :
    List (α × List α) → List α → List α × (List (α × List α) × List α)
  | [], provided => ([], ([], provided))
  | (item, deps) :: rest, provided =>
    if ∀ d ∈ deps, d ∈ provided then
      let r := topoPass rest (provided ++ [item])
      (item :: r.1, r.2)
    else
      let r := topoPass rest provided
      (r.1, ((item, deps) :: r.2.1, r.2.2))

/-- The while-loop of topological_sort.  Each iteration checks the
pending list for emptiness, runs one pass, raises AssertionError when
the pass emitted nothing (result flag false), and otherwise continues
on the remaining pairs.  The fuel argument only bounds the number of
passes: every executed pass removes at least one pending pair, so any
fuel exceeding the initial number of pairs makes the model exact. -/
def topoLoop {α : Type} [DecidableEq α] :
    Nat → List (α × List α) → List α → List α × Bool
  | 0, _, _ => ([], true)
  | fuel+1, pending, provided =>
    if pending = [] then ([], true)
    else
      let r := topoPass pending provided
      if r.1 = [] then ([], false)
      else
        let r2 := topoLoop fuel r.2.1 r.2.2
        (r.1 ++ r2.1, r2.2)

/-- topological_sort from langkit/utils.py consumed to exhaustion on a
materialized input list.  The result is the list of yielded items and a
flag which is false exactly when the run ends in AssertionError. -/
def topological_sort {α : Type} [DecidableEq α] (items : List (α × List α)) :
    List α × Bool :=
  topoLoop (items.length + 1) items []

/-- topological_sort consumed on a generator argument.  A generator
object is truthy, so the first iteration of the while-loop runs even
when the generator yields no pair; from the second iteration on, items
is the materialized remaining_items list and the loop proceeds as in
topological_sort. -/
def topological_sort_gen {α : Type} [DecidableEq α]
    (items : List (α × List α)) : List α × Bool :=
  let r := topoPass items []
  if r.1 = [] then ([], false)
  else
    let r2 := topoLoop (r.2.1.length + 1) r.2.1 r.2.2
    (r.1 ++ r2.1, r2.2)

/-- One step of the repeated-pass elimination on a loop state, a pair
of the still-pending pairs and the provided set. -/
def stepPass {α : Type} [DecidableEq α]
    (s : List (α × List α) × List α) : List (α × List α) × List α :=
  ((topoPass s.1 s.2).2.1, (topoPass s.1 s.2).2.2)

/-- Loop state reached from a starting state after a number of passes. -/
def iterFrom {α : Type} [DecidableEq α]
    (s : List (α × List α) × List α) : Nat → List (α × List α) × List α
  | 0 => s
  | n+1 => stepPass (iterFrom s n)

/-- State of the repeated-pass elimination after a number of passes on
a given input: the still-pending pairs and the provided set.  Once the
pending list is empty, or once a pass emits nothing, the state is a
fixed point of the iteration. -/
def iterPass {α : Type} [DecidableEq α] (items : List (α × List α))
    (n : Nat) : List (α × List α) × List α :=
  iterFrom (items, []) n

/-- The external Hierarchy Provider consumed by TypeSet.

Modelled from the spec: the classes stored in a TypeSet are ASTNode
subclasses whose definition is outside the analyzed sources; the spec
describes the provider as exposing, for any node identity, the set of
direct children and the root-to-self ancestor chain (ordered, root
first, ending with the node itself).  Node identities are natural
numbers; subclasses gives the direct children of a node, matching the
subclasses attribute, and chain gives the inheritance chain, matching
get_inheritance_chain.  The tree invariants the spec states for the
provider (acyclicity, one parent per non-root node, parent and
children references mutually consistent) are taken as hypotheses of
the theorems that need them. -/
structure Hierarchy where
  subclasses : Nat → List Nat
  chain : Nat → List Nat

/-- The upward walk at the end of TypeSet.include: visit the ancestors
from the immediate parent to the root; stop when one is already
matched, add an ancestor whose direct children are all matched, and
stop entirely otherwise.  The argument list is the reversed ancestor
chain with the node itself dropped, exactly as the source builds it. -/
def walkUp (h : Hierarchy) : List Nat → List Nat → List Nat
  | m, [] => m
  | m, p :: rest =>
    if p ∈ m then m
    else if ∀ c ∈ h.subclasses p, c ∈ m then walkUp h (p :: m) rest
    else m

/-- TypeSet.include from langkit/utils.py (include is a Lean keyword,
hence the underscore).  The matched set is a duplicate-free list m;
the call returns the Boolean result of include together with the new
matched set.  The fuel argument only bounds the recursion depth along
subclasses edges: the source recurses through a finite tree, so any
fuel exceeding the height of the node makes the model exact, which the
theorems express through a rank function on nodes. -/
def TypeSet_include (h : Hierarchy) : Nat → List Nat → Nat → Bool × List Nat
  | 0, m, _ => (false, m)
  | fuel+1, m, t =>
    if t ∈ m then (true, m)
    else
      let m2 := (h.subclasses t).foldl
        (fun acc c => (TypeSet_include h fuel acc c).2) (t :: m)
      (false, walkUp h m2 ((h.chain t).dropLast).reverse)

/-- TypeSet.unmatched_types from langkit/utils.py.  The source returns
a set; the embedding returns a list whose membership is the set, and
set equalities in the theorems go through List.toFinset.  The fuel
argument bounds the recursion depth exactly as in TypeSet_include. -/
def unmatched_types (h : Hierarchy) : Nat → List Nat → Nat → List Nat
  | 0, _, _ => []
  | fuel+1, m, t =>
    if t ∈ m then []
    else if ∃ c ∈ h.subclasses t, c ∈ m then
      ((h.subclasses t).map (unmatched_types h fuel m)).flatten
    else [t]

/-- Full descendant subtree of a node, cut off at the given depth: the
node itself together with the descendants of its direct children.  For
fuel exceeding the height of the node this is the whole subtree the
spec calls the full descendant subtree. -/
def descendants (h : Hierarchy) : Nat → Nat → List Nat
  | 0, _ => []
  | fuel+1, t => t :: ((h.subclasses t).map (descendants h fuel)).flatten

/-- A matched set is descendant-closed when it contains the direct
children of each of its members.  The empty initial matched set is
descendant-closed and every TypeSet.include call preserves closure, so
this is an invariant of every reachable analyzer state. -/
def DescClosed (h : Hierarchy) (m : List Nat) : Prop :=
  ∀ y ∈ m, ∀ c ∈ h.subclasses y, c ∈ m

/-- The CoverageSet invariant of the spec: every matched node is
matched either because it lies in the descendant subtree of some
explicitly included node, or because all of its direct children are
matched.  The list ex records the nodes passed to include so far, and
fuel is the depth bound under which descendant subtrees are read. -/
def Justified (h : Hierarchy) (fuel : Nat) (ex : List Nat) (m : List Nat) :
    Prop :=
  ∀ y ∈ m, (∃ e ∈ ex, y ∈ descendants h fuel e) ∨
    ∀ c ∈ h.subclasses y, c ∈ m

/-- Inductive invariant used to reason about TypeSet_include under a
rank function that decreases along subclasses edges.  A matched set
satisfies the invariant relative to an exception list E when every
member outside E carries its entire descendant subtree (read at depth
rank plus one, which is the full subtree) inside the set.  During a
call the exception list holds the chain of ancestors whose processing
is still in flight. -/
def InvE (h : Hierarchy) (rank : Nat → Nat) (E m : List Nat) : Prop :=
  ∀ y ∈ m, y ∈ E ∨ ∀ d ∈ descendants h (rank y + 1) y, d ∈ m

/-- Concrete hierarchy for witnesses: a root 0 with the three leaf
children 1, 2 and 3. -/
def h0 : Hierarchy where
  subclasses := fun x => if x = 0 then [1, 2, 3] else []
  chain := fun x => if x = 0 then [0] else if x ≤ 3 then [0, x] else [x]

/-- Concrete hierarchy for witnesses: root 0 with children 1 and 2,
node 1 itself having the leaf children 3 and 4. -/
def h1 : Hierarchy where
  subclasses := fun x =>
    if x = 0 then [1, 2] else if x = 1 then [3, 4] else []
  chain := fun x =>
    if x = 0 then [0]
    else if x = 1 then [0, 1]
    else if x = 2 then [0, 2]
    else if x ≤ 4 then [0, 1, x]
    else [x]

/-- Rank function witnessing that h0 and h1 are trees: children have
strictly smaller rank. -/
def rank01 : Nat → Nat := fun x => if x = 0 then 2 else if x = 1 then 1 else 0

theorem topoPass_provided {α : Type} [DecidableEq α]
    (pending : List (α × List α)) (provided : List α) :
    (topoPass pending provided).2.2 = provided ++ (topoPass pending provided).1 := by
  induction pending generalizing provided with
  | nil => simp [topoPass]
  | cons p rest ih =>
    obtain ⟨item, deps⟩ := p
    simp only [topoPass]
    split
    · rw [ih (provided ++ [item])]
      simp
    · exact ih provided

theorem topoPass_length {α : Type} [DecidableEq α]
    (pending : List (α × List α)) (provided : List α) :
    (topoPass pending provided).1.length + (topoPass pending provided).2.1.length
      = pending.length := by
  induction pending generalizing provided with
  | nil => simp [topoPass]
  | cons p rest ih =>
    obtain ⟨item, deps⟩ := p
    simp only [topoPass]
    split
    · have h2 := ih (provided ++ [item])
      dsimp only
      simp only [List.length_cons]
      omega
    · have h2 := ih provided
      dsimp only
      simp only [List.length_cons]
      omega

theorem topoPass_rem_subset {α : Type} [DecidableEq α]
    (pending : List (α × List α)) (provided : List α) :
    ∀ p ∈ (topoPass pending provided).2.1, p ∈ pending := by
  induction pending generalizing provided with
  | nil => simp [topoPass]
  | cons p rest ih =>
    obtain ⟨item, deps⟩ := p
    simp only [topoPass]
    split
    · intro q hq
      exact List.mem_cons_of_mem _ (ih (provided ++ [item]) q (by simpa using hq))
    · intro q hq
      simp only [List.mem_cons] at hq ⊢
      rcases hq with h | h
      · exact Or.inl h
      · exact Or.inr (ih provided q h)

theorem topoPass_sublist {α : Type} [DecidableEq α]
    (pending : List (α × List α)) (provided : List α) :
    List.Sublist (topoPass pending provided).1 (pending.map Prod.fst) := by
  induction pending generalizing provided with
  | nil => simp [topoPass]
  | cons p rest ih =>
    obtain ⟨item, deps⟩ := p
    simp only [topoPass, List.map_cons]
    split
    · exact List.Sublist.cons₂ item (ih (provided ++ [item]))
    · exact List.Sublist.cons item (ih provided)

theorem topoPass_emit {α : Type} [DecidableEq α]
    (pending : List (α × List α)) (provided : List α)
    (o₁ : List α) (x : α) (o₂ : List α)
    (h : (topoPass pending provided).1 = o₁ ++ x :: o₂) :
    ∃ deps, (x, deps) ∈ pending ∧ ∀ d ∈ deps, d ∈ provided ++ o₁ := by
  induction pending generalizing provided o₁ with
  | nil => simp [topoPass] at h
  | cons p rest ih =>
    obtain ⟨item, deps0⟩ := p
    simp only [topoPass] at h
    split at h
    · rename_i hsat
      simp only at h
      cases o₁ with
      | nil =>
        simp only [List.nil_append, List.cons.injEq] at h
        refine ⟨deps0, ?_, ?_⟩
        · simp [h.1.symm]
        · intro d hd
          simpa using hsat d hd
      | cons a o₁' =>
        simp only [List.cons_append, List.cons.injEq] at h
        obtain ⟨deps, hmem, hd⟩ := ih (provided ++ [item]) o₁' h.2
        refine ⟨deps, List.mem_cons_of_mem _ hmem, ?_⟩
        intro d hdd
        have h3 := hd d hdd
        rw [h.1] at h3
        simpa [List.append_assoc] using h3
    · simp only at h
      obtain ⟨deps, hmem, hd⟩ := ih provided o₁ h
      exact ⟨deps, List.mem_cons_of_mem _ hmem, hd⟩

theorem topoPass_nil_unsat {α : Type} [DecidableEq α]
    (pending : List (α × List α)) (provided : List α)
    (h : (topoPass pending provided).1 = []) :
    ∀ p ∈ pending, ¬ ∀ d ∈ p.2, d ∈ provided := by
  induction pending generalizing provided with
  | nil => simp
  | cons p rest ih =>
    obtain ⟨item, deps⟩ := p
    simp only [topoPass] at h
    split at h
    · simp at h
    · rename_i hunsat
      intro q hq
      simp only [List.mem_cons] at hq
      rcases hq with rfl | hq
      · exact hunsat
      · exact ih provided h q hq

theorem iterFrom_shift {α : Type} [DecidableEq α]
    (s : List (α × List α) × List α) (n : Nat) :
    iterFrom s (n+1) = iterFrom (stepPass s) n := by
  induction n with
  | zero => rfl
  | succ n ih =>
    show stepPass (iterFrom s (n+1)) = stepPass (iterFrom (stepPass s) n)
    rw [ih]

theorem stepPass_nil {α : Type} [DecidableEq α]
    (s : List (α × List α) × List α) (h : s.1 = []) : stepPass s = s := by
  obtain ⟨pending, provided⟩ := s
  simp only at h
  subst h
  simp [stepPass, topoPass]

theorem iterFrom_nil {α : Type} [DecidableEq α]
    (s : List (α × List α) × List α) (h : s.1 = []) (n : Nat) :
    iterFrom s n = s := by
  induction n with
  | zero => rfl
  | succ n ih =>
    show stepPass (iterFrom s n) = s
    rw [ih, stepPass_nil s h]

theorem topoLoop_emit {α : Type} [DecidableEq α]
    (fuel : Nat) (pending : List (α × List α)) (provided : List α)
    (o₁ : List α) (x : α) (o₂ : List α)
    (h : (topoLoop fuel pending provided).1 = o₁ ++ x :: o₂) :
    ∃ deps, (x, deps) ∈ pending ∧ ∀ d ∈ deps, d ∈ provided ++ o₁ := by
  induction fuel generalizing pending provided o₁ with
  | zero =>
    simp only [topoLoop] at h
    exact absurd h.symm (by simp)
  | succ fuel ih =>
    simp only [topoLoop] at h
    split at h
    · exact absurd h.symm (by simp)
    · split at h
      · exact absurd h.symm (by simp)
      · dsimp only at h
        rcases List.append_eq_append_iff.mp h with ⟨a', ha1, ha2⟩ | ⟨c', hc1, hc2⟩
        · obtain ⟨deps, hmem, hd⟩ := ih _ _ a' ha2
          refine ⟨deps, topoPass_rem_subset _ _ _ hmem, ?_⟩
          intro d hdd
          have h3 := hd d hdd
          rw [topoPass_provided] at h3
          rw [ha1]
          simpa [List.append_assoc] using h3
        · cases c' with
          | nil =>
            obtain ⟨deps, hmem, hd⟩ := ih _ _ [] (by simpa using hc2.symm)
            refine ⟨deps, topoPass_rem_subset _ _ _ hmem, ?_⟩
            intro d hdd
            have h3 := hd d hdd
            rw [topoPass_provided] at h3
            simp only [List.append_nil] at hc1
            rw [hc1] at h3
            simpa using h3
          | cons y t =>
            simp only [List.cons_append, List.cons.injEq] at hc2
            obtain ⟨rfl, _⟩ := hc2
            exact topoPass_emit pending provided o₁ x t (by rw [hc1])

theorem topoLoop_false_stuck {α : Type} [DecidableEq α]
    (fuel : Nat) (s : List (α × List α) × List α)
    (h : (topoLoop fuel s.1 s.2).2 = false) :
    ∃ n, (iterFrom s n).1 ≠ [] ∧
      (topoPass (iterFrom s n).1 (iterFrom s n).2).1 = [] ∧
      (iterFrom s n).2 = s.2 ++ (topoLoop fuel s.1 s.2).1 := by
  induction fuel generalizing s with
  | zero => simp [topoLoop] at h
  | succ fuel ih =>
    by_cases hnil : s.1 = []
    · rw [show topoLoop (fuel+1) s.1 s.2 = ([], true) by
        simp [topoLoop, hnil]] at h
      simp at h
    · by_cases hemp : (topoPass s.1 s.2).1 = []
      · have hval : topoLoop (fuel+1) s.1 s.2 = ([], false) := by
          simp [topoLoop, hnil, hemp]
        rw [hval]
        exact ⟨0, hnil, hemp, by simp [iterFrom]⟩
      · have hval : topoLoop (fuel+1) s.1 s.2 =
            ((topoPass s.1 s.2).1 ++
                (topoLoop fuel (topoPass s.1 s.2).2.1 (topoPass s.1 s.2).2.2).1,
              (topoLoop fuel (topoPass s.1 s.2).2.1 (topoPass s.1 s.2).2.2).2) := by
          simp [topoLoop, hnil, hemp]
        rw [hval] at h ⊢
        simp only at h ⊢
        obtain ⟨n, hn1, hn2, hn3⟩ := ih (stepPass s) h
        refine ⟨n + 1, ?_, ?_, ?_⟩
        · rw [iterFrom_shift]; exact hn1
        · rw [iterFrom_shift]; exact hn2
        · rw [iterFrom_shift, hn3]
          simp only [stepPass]
          rw [topoPass_provided]
          simp [List.append_assoc]

theorem stuck_topoLoop_false {α : Type} [DecidableEq α]
    (n : Nat) (fuel : Nat) (s : List (α × List α) × List α)
    (hfuel : s.1.length < fuel)
    (h1 : (iterFrom s n).1 ≠ [])
    (h2 : (topoPass (iterFrom s n).1 (iterFrom s n).2).1 = []) :
    (topoLoop fuel s.1 s.2).2 = false := by
  induction n generalizing fuel s with
  | zero =>
    cases fuel with
    | zero => omega
    | succ fuel =>
      have h1x : s.1 ≠ [] := h1
      have h2x : (topoPass s.1 s.2).1 = [] := h2
      have hval : topoLoop (fuel+1) s.1 s.2 = ([], false) := by
        simp [topoLoop, h1x, h2x]
      rw [hval]
  | succ n ih =>
    by_cases hnil : s.1 = []
    · rw [iterFrom_nil s hnil] at h1
      exact absurd hnil h1
    · by_cases hemp : (topoPass s.1 s.2).1 = []
      · cases fuel with
        | zero => omega
        | succ fuel =>
          have hval : topoLoop (fuel+1) s.1 s.2 = ([], false) := by
            simp [topoLoop, hnil, hemp]
          rw [hval]
      · cases fuel with
        | zero => omega
        | succ fuel =>
          have hval : (topoLoop (fuel+1) s.1 s.2).2 =
              (topoLoop fuel (topoPass s.1 s.2).2.1 (topoPass s.1 s.2).2.2).2 := by
            simp [topoLoop, hnil, hemp]
          rw [hval]
          have hlen := topoPass_length s.1 s.2
          have hpos : 0 < (topoPass s.1 s.2).1.length := by
            cases hcc : (topoPass s.1 s.2).1 with
            | nil => exact absurd hcc hemp
            | cons a l => simp [hcc]
          refine ih fuel (stepPass s) ?_ ?_ ?_
          · show (topoPass s.1 s.2).2.1.length < fuel
            omega
          · rw [← iterFrom_shift]; exact h1
          · rw [← iterFrom_shift]; exact h2

/-- C1: for every collection of (item, dependency-set) pairs on which
topological_sort runs to completion without error, the yielded
sequence is dependency-respecting: every yielded item was yielded from
one of its input pairs, and every item of that dependency set appears
strictly before it in the output. -/
theorem C1_dep_respecting {α : Type} [DecidableEq α]
    (items : List (α × List α))
    (_hok : (topological_sort items).2 = true) :
    ∀ o₁ x o₂, (topological_sort items).1 = o₁ ++ x :: o₂ →
      ∃ deps, (x, deps) ∈ items ∧ ∀ d ∈ deps, d ∈ o₁ := by
  intro o₁ x o₂ hsplit
  obtain ⟨deps, hmem, hd⟩ :=
    topoLoop_emit (items.length + 1) items [] o₁ x o₂ hsplit
  exact ⟨deps, hmem, by simpa using hd⟩

/-- Witness for C1 on the concrete input [(1, {}), (2, {1})], whose
run completes and yields 2 after its dependency 1. -/
theorem C1_dep_respecting_witness :
    ∃ deps, ((2 : Nat), deps) ∈ [(1, ([] : List Nat)), (2, [1])] ∧
      ∀ d ∈ deps, d ∈ [1] :=
  C1_dep_respecting [(1, []), (2, [1])] (by decide) [1] 2 [] (by decide)

/-- C9: topological_sort on an empty materialized input collection
yields an empty output sequence and raises no error. -/
theorem C9_empty_input :
    topological_sort ([] : List (Nat × List Nat)) = ([], true) := by
  rfl

/-- C6: within each pass the items that become ready are emitted in
their relative input order (the emitted list of a pass is a sublist of
the pending items in input order); the embedding is a pure function of
the input, so two runs on identical input produce identical output,
and the two spec examples produce exactly the stated sequences. -/
theorem C6_deterministic_order :
    (∀ (α : Type) [DecidableEq α]
        (pending : List (α × List α)) (provided : List α),
        List.Sublist (topoPass pending provided).1 (pending.map Prod.fst))
    ∧ topological_sort [(0, ([] : List Nat)), (1, [0]), (2, [0, 1])]
        = ([0, 1, 2], true)
    ∧ topological_sort [(0, ([] : List Nat)), (1, []), (2, [0]), (3, [1])]
        = ([0, 1, 2, 3], true) := by
  refine ⟨?_, by decide, by decide⟩
  intro α _ pending provided
  exact topoPass_sublist pending provided

/-- C5: topological_sort fails exactly when some pass runs over a
non-empty pending list and emits nothing, and the three malformed
inputs fail: a direct cycle (without yielding anything), a dangling
dependency, and a lazy source exhausted before yielding any pair. -/
theorem C5_failure_exactly_no_progress :
    (∀ (α : Type) [DecidableEq α] (items : List (α × List α)),
        (topological_sort items).2 = false ↔
          ∃ n, (iterPass items n).1 ≠ [] ∧
            (topoPass (iterPass items n).1 (iterPass items n).2).1 = [])
    ∧ topological_sort [(0, [1]), (1, [0])] = (([] : List Nat), false)
    ∧ topological_sort [((0 : Nat), [5])] = ([], false)
    ∧ topological_sort_gen ([] : List (Nat × List Nat)) = ([], false) := by
  refine ⟨?_, by decide, by decide, by decide⟩
  intro α _ items
  constructor
  · intro hfail
    obtain ⟨n, hn1, hn2, _⟩ := topoLoop_false_stuck (items.length + 1) (items, []) hfail
    exact ⟨n, hn1, hn2⟩
  · rintro ⟨n, hn1, hn2⟩
    exact stuck_topoLoop_false n (items.length + 1) (items, []) (by simp) hn1 hn2

/-- C10: the failure of topological_sort is not atomic with respect to
its output: when the run fails, the items already yielded are exactly
the provided set of the stuck state, every still-pending pair has a
dependency missing from everything yielded, and on the concrete mixed
input [(0, {}), (1, {2}), (2, {1})] the independent item 0 is yielded
before the failure is raised. -/
theorem C10_partial_output_on_failure :
    (∀ (α : Type) [DecidableEq α] (items : List (α × List α)),
        (topological_sort items).2 = false →
          ∃ n, (iterPass items n).1 ≠ [] ∧
            (∀ p ∈ (iterPass items n).1, ¬ ∀ d ∈ p.2, d ∈ (iterPass items n).2) ∧
            (iterPass items n).2 = (topological_sort items).1)
    ∧ topological_sort [(0, ([] : List Nat)), (1, [2]), (2, [1])]
        = ([0], false) := by
  refine ⟨?_, by decide⟩
  intro α _ items hfail
  obtain ⟨n, hn1, hn2, hn3⟩ := topoLoop_false_stuck (items.length + 1) (items, []) hfail
  refine ⟨n, hn1, ?_, by simpa using hn3⟩
  exact topoPass_nil_unsat _ _ hn2

/-- Witness for C10 on the concrete input [(0, {}), (1, {2}), (2, {1})]:
the run fails, and a stuck pass exists whose provided set is the
yielded prefix [0]. -/
theorem C10_partial_output_on_failure_witness :
    ∃ n, (iterPass [((0 : Nat), ([] : List Nat)), (1, [2]), (2, [1])] n).1 ≠ [] ∧
      (∀ p ∈ (iterPass [((0 : Nat), ([] : List Nat)), (1, [2]), (2, [1])] n).1,
        ¬ ∀ d ∈ p.2, d ∈ (iterPass [((0 : Nat), ([] : List Nat)), (1, [2]), (2, [1])] n).2) ∧
      (iterPass [((0 : Nat), ([] : List Nat)), (1, [2]), (2, [1])] n).2
        = (topological_sort [((0 : Nat), ([] : List Nat)), (1, [2]), (2, [1])]).1 :=
  C10_partial_output_on_failure.1 Nat [(0, []), (1, [2]), (2, [1])] (by decide)

/-- C7 counterexample: the failure of topological_sort is a bare
AssertionError and does not surface the still-pending pairs.  Two
inputs whose stuck pending collections differ (a two-item cycle versus
a three-item cluster) produce literally identical observable results,
so no consumer of the failure can recover which pairs were pending. -/
theorem C7_counterexample :
    topological_sort [((0 : Nat), [1]), (1, [0])]
      = topological_sort [(2, [3]), (3, [2]), (4, [2])]
    ∧ (topological_sort [((0 : Nat), [1]), (1, [0])]).2 = false
    ∧ [((0 : Nat), [1]), (1, [0])] ≠ [(2, [3]), (3, [2]), (4, [2])] := by
  refine ⟨by decide, by decide, by decide⟩

/-- C7 amended: when topological_sort fails on a pass that makes no
progress, the failure signal is the bare assertion with no payload;
the still-pending pairs are not surfaced through it, and the caller
observes only the items already yielded before the failure. -/
theorem C7_amended_no_pending_surfaced :
    topological_sort [((0 : Nat), [1]), (1, [0])] = ([], false)
    ∧ topological_sort [((2 : Nat), [3]), (3, [2]), (4, [2])] = ([], false) := by
  refine ⟨by decide, by decide⟩

theorem walkUp_mono (h : Hierarchy) :
    ∀ (l m : List Nat), ∀ y ∈ m, y ∈ walkUp h m l := by
  intro l
  induction l with
  | nil => intro m y hy; simpa [walkUp] using hy
  | cons p rest ih =>
    intro m y hy
    simp only [walkUp]
    split
    · exact hy
    · split
      · exact ih (p :: m) y (List.mem_cons_of_mem _ hy)
      · exact hy

theorem walkUp_adds (h : Hierarchy) :
    ∀ (l m : List Nat), ∀ y ∈ walkUp h m l, y ∈ m ∨ y ∈ l := by
  intro l
  induction l with
  | nil => intro m y hy; exact Or.inl (by simpa [walkUp] using hy)
  | cons p rest ih =>
    intro m y hy
    simp only [walkUp] at hy
    split at hy
    · exact Or.inl hy
    · split at hy
      · rcases ih (p :: m) y hy with hm | hl
        · rcases List.mem_cons.mp hm with rfl | hm
          · exact Or.inr (List.mem_cons_self _ _)
          · exact Or.inl hm
        · exact Or.inr (List.mem_cons_of_mem _ hl)
      · exact Or.inl hy

theorem TypeSet_include_mono (h : Hierarchy) :
    ∀ (fuel : Nat) (m : List Nat) (t : Nat), ∀ y ∈ m,
      y ∈ (TypeSet_include h fuel m t).2 := by
  intro fuel
  induction fuel with
  | zero => intro m t y hy; simpa [TypeSet_include] using hy
  | succ fuel ih =>
    intro m t y hy
    simp only [TypeSet_include]
    split
    · exact hy
    · apply walkUp_mono
      have hfold : ∀ (cs : List Nat) (acc : List Nat), y ∈ acc →
          y ∈ cs.foldl (fun a c => (TypeSet_include h fuel a c).2) acc := by
        intro cs
        induction cs with
        | nil => intro acc hacc; simpa using hacc
        | cons c cs ihc => intro acc hacc; exact ihc _ (ih _ _ y hacc)
      exact hfold _ _ (List.mem_cons_of_mem _ hy)

theorem foldl_include_mono (h : Hierarchy) (fuel : Nat) :
    ∀ (cs acc : List Nat), ∀ y ∈ acc,
      y ∈ cs.foldl (fun a c => (TypeSet_include h fuel a c).2) acc := by
  intro cs
  induction cs with
  | nil => intro acc y hy; simpa using hy
  | cons c cs ihc =>
    intro acc y hy
    exact ihc _ y (TypeSet_include_mono h fuel acc c y hy)

theorem TypeSet_include_mem (h : Hierarchy) (fuel : Nat) (m : List Nat)
    (t : Nat) (hfuel : 0 < fuel) : t ∈ (TypeSet_include h fuel m t).2 := by
  cases fuel with
  | zero => omega
  | succ fuel =>
    simp only [TypeSet_include]
    split
    · assumption
    · exact walkUp_mono h _ _ t
        (foldl_include_mono h fuel _ _ t (List.mem_cons_self _ _))

theorem TypeSet_include_already (h : Hierarchy) (fuel : Nat) (m : List Nat)
    (t : Nat) (ht : t ∈ m) : TypeSet_include h (fuel+1) m t = (true, m) := by
  simp [TypeSet_include, ht]

theorem TypeSet_include_false (h : Hierarchy) (fuel : Nat) (m : List Nat)
    (t : Nat) (ht : t ∉ m) : (TypeSet_include h (fuel+1) m t).1 = false := by
  simp [TypeSet_include, ht]

theorem foldl_include_adds (h : Hierarchy) (fuel : Nat) (hfuel : 0 < fuel) :
    ∀ (cs acc : List Nat), ∀ c ∈ cs,
      c ∈ cs.foldl (fun a c => (TypeSet_include h fuel a c).2) acc := by
  intro cs
  induction cs with
  | nil => intro acc c hc; simp at hc
  | cons c0 cs ihc =>
    intro acc c hc
    rcases List.mem_cons.mp hc with rfl | hc
    · exact foldl_include_mono h fuel cs _ c (TypeSet_include_mem h fuel acc c hfuel)
    · exact ihc _ c hc

theorem descendants_self (h : Hierarchy) (fuel : Nat) (t : Nat)
    (hfuel : 0 < fuel) : t ∈ descendants h fuel t := by
  cases fuel with
  | zero => omega
  | succ fuel => simp [descendants]

theorem descendants_child (h : Hierarchy) (fuel : Nat) (t c y : Nat)
    (hc : c ∈ h.subclasses t) (hy : y ∈ descendants h fuel c) :
    y ∈ descendants h (fuel+1) t := by
  simp only [descendants, List.mem_cons, List.mem_flatten]
  exact Or.inr ⟨descendants h fuel c, List.mem_map_of_mem _ hc, hy⟩

theorem DescClosed_descendants (h : Hierarchy) (m : List Nat)
    (hm : DescClosed h m) :
    ∀ (fuel : Nat), ∀ y ∈ m, ∀ d ∈ descendants h fuel y, d ∈ m := by
  intro fuel
  induction fuel with
  | zero => intro y _ d hd; simp [descendants] at hd
  | succ fuel ih =>
    intro y hy d hd
    simp only [descendants, List.mem_cons, List.mem_flatten] at hd
    rcases hd with rfl | ⟨l, hl, hdl⟩
    · exact hy
    · obtain ⟨c, hc, rfl⟩ := List.mem_map.mp hl
      exact ih c (hm y hy c hc) d hdl

theorem walkUp_shape (h : Hierarchy) :
    ∀ (l m : List Nat), ∀ y ∈ walkUp h m l,
      y ∈ m ∨ ∀ c ∈ h.subclasses y, c ∈ walkUp h m l := by
  intro l
  induction l with
  | nil => intro m y hy; exact Or.inl (by simpa [walkUp] using hy)
  | cons p rest ih =>
    intro m y hy
    simp only [walkUp] at hy ⊢
    split_ifs at hy ⊢ with h1 h2
    · exact Or.inl hy
    · rcases ih (p :: m) y hy with hpm | hch
      · rcases List.mem_cons.mp hpm with rfl | hm
        · refine Or.inr ?_
          intro c hc
          exact walkUp_mono h rest (y :: m) c (List.mem_cons_of_mem _ (h2 c hc))
        · exact Or.inl hm
      · exact Or.inr hch
    · exact Or.inl hy

theorem TypeSet_include_shape (h : Hierarchy) :
    ∀ (fuel : Nat) (m : List Nat) (t : Nat), ∀ y ∈ (TypeSet_include h fuel m t).2,
      y ∈ m ∨ y ∈ descendants h fuel t ∨
        ∀ c ∈ h.subclasses y, c ∈ (TypeSet_include h fuel m t).2 := by
  intro fuel
  induction fuel with
  | zero => intro m t y hy; exact Or.inl (by simpa [TypeSet_include] using hy)
  | succ fuel ih =>
    intro m t y hy
    by_cases htm : t ∈ m
    · rw [TypeSet_include_already h fuel m t htm] at hy ⊢
      exact Or.inl hy
    · have hres : (TypeSet_include h (fuel+1) m t).2
          = walkUp h (List.foldl (fun a c => (TypeSet_include h fuel a c).2)
                (t :: m) (h.subclasses t))
              ((h.chain t).dropLast).reverse := by
        simp [TypeSet_include, htm]
      rw [hres] at hy ⊢
      rcases walkUp_shape h _ _ y hy with hym2 | hcw
      · have hfold : ∀ (cs acc : List Nat),
            y ∈ List.foldl (fun a c => (TypeSet_include h fuel a c).2) acc cs →
            y ∈ acc ∨ (∃ c ∈ cs, y ∈ descendants h fuel c) ∨
              ∀ ch ∈ h.subclasses y,
                ch ∈ List.foldl (fun a c => (TypeSet_include h fuel a c).2) acc cs := by
          intro cs
          induction cs with
          | nil => intro acc hacc; exact Or.inl (by simpa using hacc)
          | cons c cs ihc =>
            intro acc hacc
            simp only [List.foldl_cons] at hacc ⊢
            rcases ihc _ hacc with hin | hex | hch
            · rcases ih acc c y hin with ha | hd | hch2
              · exact Or.inl ha
              · exact Or.inr (Or.inl ⟨c, List.mem_cons_self _ _, hd⟩)
              · refine Or.inr (Or.inr ?_)
                intro ch hch3
                exact foldl_include_mono h fuel cs _ ch (hch2 ch hch3)
            · obtain ⟨c', hc', hd⟩ := hex
              exact Or.inr (Or.inl ⟨c', List.mem_cons_of_mem _ hc', hd⟩)
            · exact Or.inr (Or.inr hch)
        rcases hfold _ _ hym2 with hacc | hex | hch
        · rcases List.mem_cons.mp hacc with rfl | hm
          · exact Or.inr (Or.inl (descendants_self h (fuel+1) y (by omega)))
          · exact Or.inl hm
        · obtain ⟨c, hc, hd⟩ := hex
          exact Or.inr (Or.inl (descendants_child h fuel t c y hc hd))
        · refine Or.inr (Or.inr ?_)
          intro c hc
          exact walkUp_mono h _ _ c (hch c hc)
      · exact Or.inr (Or.inr hcw)

theorem TypeSet_include_bound (h : Hierarchy) :
    ∀ (fuel : Nat) (m : List Nat) (t : Nat), ∀ y ∈ (TypeSet_include h fuel m t).2,
      y ∈ m ∨ y ∈ descendants h fuel t ∨
        ∃ d ∈ descendants h fuel t, y ∈ h.chain d := by
  intro fuel
  induction fuel with
  | zero => intro m t y hy; exact Or.inl (by simpa [TypeSet_include] using hy)
  | succ fuel ih =>
    intro m t y hy
    by_cases htm : t ∈ m
    · rw [TypeSet_include_already h fuel m t htm] at hy
      exact Or.inl hy
    · have hres : (TypeSet_include h (fuel+1) m t).2
          = walkUp h (List.foldl (fun a c => (TypeSet_include h fuel a c).2)
                (t :: m) (h.subclasses t))
              ((h.chain t).dropLast).reverse := by
        simp [TypeSet_include, htm]
      rw [hres] at hy
      rcases walkUp_adds h _ _ y hy with hym2 | hyl
      · have hfold : ∀ (cs acc : List Nat),
            y ∈ List.foldl (fun a c => (TypeSet_include h fuel a c).2) acc cs →
            y ∈ acc ∨ ∃ c ∈ cs, y ∈ descendants h fuel c ∨
              ∃ d ∈ descendants h fuel c, y ∈ h.chain d := by
          intro cs
          induction cs with
          | nil => intro acc hacc; exact Or.inl (by simpa using hacc)
          | cons c cs ihc =>
            intro acc hacc
            simp only [List.foldl_cons] at hacc
            rcases ihc _ hacc with hin | ⟨c', hc', hrest⟩
            · rcases ih acc c y hin with ha | hd | hch
              · exact Or.inl ha
              · exact Or.inr ⟨c, List.mem_cons_self _ _, Or.inl hd⟩
              · exact Or.inr ⟨c, List.mem_cons_self _ _, Or.inr hch⟩
            · exact Or.inr ⟨c', List.mem_cons_of_mem _ hc', hrest⟩
        rcases hfold _ _ hym2 with hacc | ⟨c, hc, hca⟩
        · rcases List.mem_cons.mp hacc with rfl | hm
          · exact Or.inr (Or.inl (descendants_self h (fuel+1) y (by omega)))
          · exact Or.inl hm
        · rcases hca with hd | ⟨d, hdm, hyc⟩
          · exact Or.inr (Or.inl (descendants_child h fuel t c y hc hd))
          · exact Or.inr (Or.inr ⟨d, descendants_child h fuel t c d hc hdm, hyc⟩)
      · have hyc : y ∈ h.chain t := by
          rw [List.mem_reverse] at hyl
          exact List.dropLast_subset _ hyl
        exact Or.inr (Or.inr ⟨t, descendants_self h (fuel+1) t (by omega), hyc⟩)

theorem descendants_stable (h : Hierarchy) (rank : Nat → Nat)
    (hrank : ∀ y, ∀ c ∈ h.subclasses y, rank c < rank y) :
    ∀ (f : Nat) (z : Nat) (f' : Nat), rank z < f → rank z < f' →
      descendants h f z = descendants h f' z := by
  intro f
  induction f using Nat.strong_induction_on with
  | _ f ihf =>
    intro z f' h1 h2
    cases f with
    | zero => omega
    | succ f =>
      cases f' with
      | zero => omega
      | succ f' =>
        simp only [descendants]
        congr 1
        apply congrArg
        apply List.map_congr_left
        intro c hc
        have hcz := hrank z c hc
        exact ihf f (Nat.lt_succ_self f) c f' (by omega) (by omega)

theorem DescClosed_InvE (h : Hierarchy) (rank : Nat → Nat) (m : List Nat)
    (hm : DescClosed h m) : InvE h rank [] m := by
  intro y hy
  exact Or.inr (fun d hd => DescClosed_descendants h m hm _ y hy d hd)

theorem walkUp_InvE (h : Hierarchy) (rank : Nat → Nat)
    (hrank : ∀ y, ∀ c ∈ h.subclasses y, rank c < rank y) :
    ∀ (l m : List Nat), InvE h rank [] m → InvE h rank [] (walkUp h m l) := by
  intro l
  induction l with
  | nil => intro m hm; simpa [walkUp] using hm
  | cons p rest ih =>
    intro m hm
    simp only [walkUp]
    split_ifs with h1 h2
    · exact hm
    · apply ih
      intro y hy
      rcases List.mem_cons.mp hy with rfl | hym
      · refine Or.inr ?_
        intro d hd
        simp only [descendants, List.mem_cons, List.mem_flatten] at hd
        rcases hd with rfl | ⟨lst, hlst, hdl⟩
        · exact List.mem_cons_self _ _
        · obtain ⟨c, hc, rfl⟩ := List.mem_map.mp hlst
          have hcm : c ∈ m := h2 c hc
          rcases hm c hcm with he | hdesc
          · simp at he
          · have hstable := descendants_stable h rank hrank (rank y) c (rank c + 1)
              (hrank y c hc) (Nat.lt_succ_self _)
            rw [hstable] at hdl
            exact List.mem_cons_of_mem _ (hdesc d hdl)
      · rcases hm y hym with he | hdesc
        · simp at he
        · exact Or.inr (fun d hd => List.mem_cons_of_mem _ (hdesc d hd))
    · exact hm

theorem include_main (h : Hierarchy) (rank : Nat → Nat)
    (hrank : ∀ y, ∀ c ∈ h.subclasses y, rank c < rank y)
    (hchain : ∀ y, ∀ c ∈ h.subclasses y, h.chain c = h.chain y ++ [c])
    (hself : ∀ y, ∃ pre, h.chain y = pre ++ [y]) :
    ∀ (g : Nat) (z : Nat) (m E : List Nat), rank z < g →
      (∀ e ∈ E, rank z < rank e) →
      (∀ e, E.head? = some e → z ∈ h.subclasses e) →
      (∀ e ∈ E, e ∈ m) →
      InvE h rank E m →
      InvE h rank E (TypeSet_include h g m z).2 ∧
        ∀ d ∈ descendants h (rank z + 1) z, d ∈ (TypeSet_include h g m z).2 := by
  intro g
  induction g with
  | zero => exact fun z m E hg => absurd hg (Nat.not_lt_zero _)
  | succ g ih =>
    intro z m E hg hE hpar hEm hInv
    by_cases hzm : z ∈ m
    · rw [TypeSet_include_already h g m z hzm]
      refine ⟨hInv, ?_⟩
      rcases hInv z hzm with he | hdesc
      · exact absurd (hE z he) (lt_irrefl _)
      · exact hdesc
    · have hres : (TypeSet_include h (g+1) m z).2
          = walkUp h (List.foldl (fun a c => (TypeSet_include h g a c).2)
                (z :: m) (h.subclasses z))
              ((h.chain z).dropLast).reverse := by
        simp [TypeSet_include, hzm]
      have hfold : ∀ (cs : List Nat), (∀ c ∈ cs, c ∈ h.subclasses z) →
          ∀ (acc : List Nat), InvE h rank (z :: E) acc → (∀ e ∈ z :: E, e ∈ acc) →
          (InvE h rank (z :: E)
              (List.foldl (fun a c => (TypeSet_include h g a c).2) acc cs)
            ∧ (∀ e ∈ z :: E,
                e ∈ List.foldl (fun a c => (TypeSet_include h g a c).2) acc cs)
            ∧ ∀ c ∈ cs, ∀ d ∈ descendants h (rank c + 1) c,
                d ∈ List.foldl (fun a c => (TypeSet_include h g a c).2) acc cs) := by
        intro cs
        induction cs with
        | nil =>
          intro _ acc hInvA hEA
          exact ⟨by simpa using hInvA, by simpa using hEA, by simp⟩
        | cons c cs ihc =>
          intro hsub acc hInvA hEA
          have hcz : c ∈ h.subclasses z := hsub c (List.mem_cons_self _ _)
          have hrankc : rank c < g := by
            have := hrank z c hcz
            omega
          have hstep := ih c acc (z :: E) hrankc
            (by
              intro e he
              rcases List.mem_cons.mp he with rfl | he
              · exact hrank e c hcz
              · exact lt_trans (hrank z c hcz) (hE e he))
            (by
              intro e he
              simp only [List.head?_cons, Option.some.injEq] at he
              subst he
              exact hcz)
            hEA hInvA
          simp only [List.foldl_cons]
          have hEA2 : ∀ e ∈ z :: E, e ∈ (TypeSet_include h g acc c).2 := by
            intro e he
            exact TypeSet_include_mono h g acc c e (hEA e he)
          obtain ⟨hInv2, hall2, hdesc2⟩ :=
            ihc (fun c' hc' => hsub c' (List.mem_cons_of_mem _ hc')) _ hstep.1 hEA2
          refine ⟨hInv2, hall2, ?_⟩
          intro c' hc' d hd
          rcases List.mem_cons.mp hc' with rfl | hc'
          · exact foldl_include_mono h g cs _ d (hstep.2 d hd)
          · exact hdesc2 c' hc' d hd
      have hInvAcc0 : InvE h rank (z :: E) (z :: m) := by
        intro y hy
        rcases List.mem_cons.mp hy with rfl | hym
        · exact Or.inl (List.mem_cons_self _ _)
        · rcases hInv y hym with he | hdesc
          · exact Or.inl (List.mem_cons_of_mem _ he)
          · exact Or.inr (fun d hd => List.mem_cons_of_mem _ (hdesc d hd))
      have hEAcc0 : ∀ e ∈ z :: E, e ∈ z :: m := by
        intro e he
        rcases List.mem_cons.mp he with rfl | he
        · exact List.mem_cons_self _ _
        · exact List.mem_cons_of_mem _ (hEm e he)
      obtain ⟨hInvM2, hEM2, hdescM2⟩ :=
        hfold (h.subclasses z) (fun c hc => hc) (z :: m) hInvAcc0 hEAcc0
      have hzm2 : z ∈ List.foldl (fun a c => (TypeSet_include h g a c).2)
          (z :: m) (h.subclasses z) := hEM2 z (List.mem_cons_self _ _)
      have hdz : ∀ d ∈ descendants h (rank z + 1) z,
          d ∈ List.foldl (fun a c => (TypeSet_include h g a c).2)
            (z :: m) (h.subclasses z) := by
        intro d hd
        simp only [descendants, List.mem_cons, List.mem_flatten] at hd
        rcases hd with rfl | ⟨lst, hlst, hdl⟩
        · exact hzm2
        · obtain ⟨c, hc, rfl⟩ := List.mem_map.mp hlst
          have hst : descendants h (rank z) c = descendants h (rank c + 1) c :=
            descendants_stable h rank hrank (rank z) c (rank c + 1)
              (hrank z c hc) (Nat.lt_succ_self _)
          rw [hst] at hdl
          exact hdescM2 c hc d hdl
      have hInvEM2 : InvE h rank E (List.foldl
          (fun a c => (TypeSet_include h g a c).2) (z :: m) (h.subclasses z)) := by
        intro y hy
        rcases hInvM2 y hy with hyE | hdesc
        · rcases List.mem_cons.mp hyE with rfl | hyE
          · exact Or.inr hdz
          · exact Or.inl hyE
        · exact Or.inr hdesc
      rw [hres]
      cases E with
      | nil =>
        refine ⟨walkUp_InvE h rank hrank _ _ hInvEM2, ?_⟩
        intro d hd
        exact walkUp_mono h _ _ d (hdz d hd)
      | cons e E' =>
        have hzsub : z ∈ h.subclasses e := hpar e rfl
        have hch : h.chain z = h.chain e ++ [z] := hchain e z hzsub
        obtain ⟨pre, hpre⟩ := hself e
        have hlist : ((h.chain z).dropLast).reverse = e :: pre.reverse := by
          rw [hch, List.dropLast_concat, hpre, List.reverse_append]
          simp
        rw [hlist]
        have hem2 : e ∈ List.foldl (fun a c => (TypeSet_include h g a c).2)
            (z :: m) (h.subclasses z) :=
          hEM2 e (List.mem_cons_of_mem _ (List.mem_cons_self _ _))
        have hwalk : walkUp h (List.foldl (fun a c => (TypeSet_include h g a c).2)
            (z :: m) (h.subclasses z)) (e :: pre.reverse)
            = List.foldl (fun a c => (TypeSet_include h g a c).2)
              (z :: m) (h.subclasses z) := by
          simp [walkUp, hem2]
        rw [hwalk]
        exact ⟨hInvEM2, hdz⟩

theorem foldl_include_bound (h : Hierarchy) (fuel : Nat) :
    ∀ (cs acc : List Nat),
      ∀ y ∈ List.foldl (fun a c => (TypeSet_include h fuel a c).2) acc cs,
      y ∈ acc ∨ ∃ x ∈ cs, y ∈ descendants h fuel x ∨
        ∃ d ∈ descendants h fuel x, y ∈ h.chain d := by
  intro cs
  induction cs with
  | nil => intro acc y hy; exact Or.inl (by simpa using hy)
  | cons c cs ihc =>
    intro acc y hy
    simp only [List.foldl_cons] at hy
    rcases ihc _ y hy with hin | ⟨x, hx, hrest⟩
    · rcases TypeSet_include_bound h fuel acc c y hin with ha | hd | hch
      · exact Or.inl ha
      · exact Or.inr ⟨c, List.mem_cons_self _ _, Or.inl hd⟩
      · exact Or.inr ⟨c, List.mem_cons_self _ _, Or.inr hch⟩
    · exact Or.inr ⟨x, List.mem_cons_of_mem _ hx, hrest⟩

theorem h0_rank : ∀ y, ∀ c ∈ h0.subclasses y, rank01 c < rank01 y := by
  intro y c hc
  have hc2 : c ∈ (if y = 0 then [1, 2, 3] else ([] : List Nat)) := hc
  split_ifs at hc2 with hy
  · subst hy
    simp only [List.mem_cons, List.not_mem_nil, or_false] at hc2
    rcases hc2 with rfl | rfl | rfl <;> decide
  · simp at hc2

theorem h0_chain_cons : ∀ y, ∀ c ∈ h0.subclasses y,
    h0.chain c = h0.chain y ++ [c] := by
  intro y c hc
  have hc2 : c ∈ (if y = 0 then [1, 2, 3] else ([] : List Nat)) := hc
  split_ifs at hc2 with hy
  · subst hy
    simp only [List.mem_cons, List.not_mem_nil, or_false] at hc2
    rcases hc2 with rfl | rfl | rfl <;> decide
  · simp at hc2

theorem h0_chain_self : ∀ y, ∃ pre, h0.chain y = pre ++ [y] := by
  intro y
  have hch : h0.chain y
      = (if y = 0 then [0] else if y ≤ 3 then [0, y] else [y]) := rfl
  rw [hch]
  split_ifs with hy hy3
  · exact ⟨[], by simp [hy]⟩
  · exact ⟨[0], rfl⟩
  · exact ⟨[], rfl⟩

/-- C2: include(t) returns true and leaves the matched set unchanged
when t is already matched; otherwise, on a consistent finite hierarchy
and a descendant-closed matched set (the invariant of every reachable
analyzer state), it returns false and adds t and its whole descendant
subtree; calling include twice on the same node returns false then
true and the second call leaves the matched set exactly as it was. -/
theorem C2_include_coverage :
    (∀ (h : Hierarchy) (fuel : Nat) (m : List Nat) (t : Nat),
        t ∈ m → TypeSet_include h (fuel+1) m t = (true, m))
    ∧ (∀ (h : Hierarchy) (rank : Nat → Nat) (fuel : Nat) (m : List Nat) (t : Nat),
        (∀ y, ∀ c ∈ h.subclasses y, rank c < rank y) →
        (∀ y, ∀ c ∈ h.subclasses y, h.chain c = h.chain y ++ [c]) →
        (∀ y, ∃ pre, h.chain y = pre ++ [y]) →
        DescClosed h m → t ∉ m → rank t < fuel →
        (TypeSet_include h fuel m t).1 = false ∧
          ∀ d ∈ descendants h fuel t, d ∈ (TypeSet_include h fuel m t).2)
    ∧ (∀ (h : Hierarchy) (fuel : Nat) (m : List Nat) (t : Nat),
        t ∉ m → 0 < fuel →
        (TypeSet_include h fuel m t).1 = false ∧
          TypeSet_include h fuel ((TypeSet_include h fuel m t).2) t
            = (true, (TypeSet_include h fuel m t).2)) := by
  refine ⟨?_, ?_, ?_⟩
  · intro h fuel m t ht
    exact TypeSet_include_already h fuel m t ht
  · intro h rank fuel m t hrank hchain hself hdc htm hfuel
    have hmain := include_main h rank hrank hchain hself fuel t m [] hfuel
      (by intro e he; simp at he) (by intro e he; simp at he)
      (by intro e he; simp at he) (DescClosed_InvE h rank m hdc)
    constructor
    · cases fuel with
      | zero => omega
      | succ fuel => exact TypeSet_include_false h fuel m t htm
    · intro d hd
      apply hmain.2
      have hst := descendants_stable h rank hrank fuel t (rank t + 1) hfuel
        (Nat.lt_succ_self _)
      rw [← hst]
      exact hd
  · intro h fuel m t htm hfuel
    have hmem := TypeSet_include_mem h fuel m t hfuel
    constructor
    · cases fuel with
      | zero => omega
      | succ fuel => exact TypeSet_include_false h fuel m t htm
    · cases fuel with
      | zero => omega
      | succ fuel => exact TypeSet_include_already h fuel _ t hmem

/-- Witness for C2 on the hierarchy h0: including the unmatched root 0
into the empty matched set returns false and covers the entire
descendant subtree of 0. -/
theorem C2_include_coverage_witness :
    (TypeSet_include h0 3 [] 0).1 = false ∧
      ∀ d ∈ descendants h0 3 0, d ∈ (TypeSet_include h0 3 [] 0).2 :=
  C2_include_coverage.2.1 h0 rank01 3 [] 0 h0_rank h0_chain_cons h0_chain_self
    (fun y hy => absurd hy (List.not_mem_nil y)) (by decide) (by decide)

/-- C3: unmatched_types returns the empty set when the node is
matched; with an unmatched node it returns the union over the direct
children when at least one direct child is matched, and collapses to
the singleton of the node itself when no direct child is matched; on
the sibling example, including only 1 under the root 0 of h0 leaves
exactly the set of the two other leaves, and including nothing leaves
the root alone. -/
theorem C3_unmatched_types_semantics :
    (∀ (h : Hierarchy) (fuel : Nat) (m : List Nat) (t : Nat),
        t ∈ m → unmatched_types h (fuel+1) m t = [])
    ∧ (∀ (h : Hierarchy) (fuel : Nat) (m : List Nat) (t : Nat),
        t ∉ m → (∃ c ∈ h.subclasses t, c ∈ m) →
        unmatched_types h (fuel+1) m t
          = ((h.subclasses t).map (unmatched_types h fuel m)).flatten)
    ∧ (∀ (h : Hierarchy) (fuel : Nat) (m : List Nat) (t : Nat),
        t ∉ m → (∀ c ∈ h.subclasses t, c ∉ m) →
        unmatched_types h (fuel+1) m t = [t])
    ∧ (unmatched_types h0 2 (TypeSet_include h0 2 [] 1).2 0).toFinset
        = ({2, 3} : Finset Nat)
    ∧ unmatched_types h0 2 [] 0 = [0] := by
  refine ⟨?_, ?_, ?_, by decide, by decide⟩
  · intro h fuel m t ht
    simp [unmatched_types, ht]
  · intro h fuel m t ht hex
    simp [unmatched_types, ht, hex]
  · intro h fuel m t ht hall
    have hnex : ¬ ∃ c ∈ h.subclasses t, c ∈ m := by
      rintro ⟨c, hc, hcm⟩
      exact hall c hc hcm
    simp [unmatched_types, ht, hnex]

/-- Witness for C3 on the hierarchy h0: the root 0 placed in the
matched set makes unmatched_types empty. -/
theorem C3_unmatched_types_semantics_witness :
    unmatched_types h0 5 [0] 0 = [] :=
  C3_unmatched_types_semantics.1 h0 4 [0] 0 (by decide)

/-- C8: the CoverageSet invariant is preserved by every include call:
after the call every matched node either lies in the descendant
subtree of some explicitly included node or has all of its direct
children matched. -/
theorem C8_matched_set_invariant :
    ∀ (h : Hierarchy) (fuel : Nat) (ex m : List Nat) (x : Nat),
      Justified h fuel ex m →
      Justified h fuel (x :: ex) (TypeSet_include h fuel m x).2 := by
  intro h fuel ex m x hj y hy
  rcases TypeSet_include_shape h fuel m x y hy with hm | hd | hc
  · rcases hj y hm with ⟨e, he, hde⟩ | hch
    · exact Or.inl ⟨e, List.mem_cons_of_mem _ he, hde⟩
    · exact Or.inr (fun c hc2 => TypeSet_include_mono h fuel m x c (hch c hc2))
  · exact Or.inl ⟨x, List.mem_cons_self _ _, hd⟩
  · exact Or.inr hc

/-- Witness for C8 on the hierarchy h0: starting from the empty
matched set, which is trivially justified, including the leaf 1 gives
a justified matched set. -/
theorem C8_matched_set_invariant_witness :
    Justified h0 2 [1] (TypeSet_include h0 2 [] 1).2 :=
  C8_matched_set_invariant h0 2 [] [] 1
    (fun y hy => absurd hy (List.not_mem_nil y))

/-- C4: on a consistent tree, passing every direct child of a node P
to include, one by one in any order and starting from the empty
matched set, ends with P matched although P itself was never passed
(P cannot even occur among the calls), and unmatched_types on P then
returns the empty set; moreover including any node directly makes
unmatched_types on it return the empty set whatever the previous
matched set was. -/
theorem C4_upward_propagation :
    (∀ (h : Hierarchy) (P : Nat) (fuel : Nat) (calls : List Nat),
        h.subclasses P ≠ [] →
        calls.Perm (h.subclasses P) →
        (h.subclasses P).Nodup →
        (∃ pre, h.chain P = pre ++ [P]) →
        (∀ c ∈ h.subclasses P, h.chain c = h.chain P ++ [c]) →
        (∀ c ∈ h.subclasses P, ∀ c' ∈ h.subclasses P, c ≠ c' →
          c' ∉ descendants h fuel c ∧
            ∀ d ∈ descendants h fuel c, c' ∉ h.chain d) →
        0 < fuel →
        P ∉ calls ∧
          P ∈ List.foldl (fun m c => (TypeSet_include h fuel m c).2) [] calls ∧
          unmatched_types h (fuel+1)
            (List.foldl (fun m c => (TypeSet_include h fuel m c).2) [] calls) P
            = [])
    ∧ ∀ (h : Hierarchy) (fuel1 fuel2 : Nat) (m : List Nat) (r : Nat),
        unmatched_types h (fuel2+1) ((TypeSet_include h (fuel1+1) m r).2) r
          = [] := by
  constructor
  · intro h P fuel calls hne hperm hnd hchainP hcons hsep hfuel
    have hPnc : P ∉ h.subclasses P := by
      intro hPc
      have hlen := congrArg List.length (hcons P hPc)
      simp at hlen
    have hPcalls : P ∉ calls := fun hPc => hPnc (hperm.subset hPc)
    refine ⟨hPcalls, ?_⟩
    rcases List.eq_nil_or_concat calls with rfl | ⟨l, c, hcalls⟩
    · exact absurd hperm.symm.eq_nil hne
    · rw [List.concat_eq_append] at hcalls
      subst hcalls
      have hccalls : c ∈ l ++ [c] := by simp
      have hcchild : c ∈ h.subclasses P := hperm.subset hccalls
      have hndcalls : (l ++ [c]).Nodup := hperm.symm.nodup hnd
      have hcl : c ∉ l := by
        rw [List.nodup_append] at hndcalls
        intro hcl
        exact hndcalls.2.2 hcl (by simp)
      have hlchild : ∀ x ∈ l, x ∈ h.subclasses P :=
        fun x hx => hperm.subset (by simp [hx])
      rw [List.foldl_append]
      simp only [List.foldl_cons, List.foldl_nil]
      have hcm1 : c ∉ List.foldl (fun m c => (TypeSet_include h fuel m c).2) [] l := by
        intro hcm
        rcases foldl_include_bound h fuel l [] c hcm with hnil | ⟨x, hx, hrest⟩
        · simp at hnil
        · have hxch := hlchild x hx
          have hxc : x ≠ c := fun hxeq => hcl (hxeq ▸ hx)
          have hsep2 := hsep x hxch c hcchild hxc
          rcases hrest with hd | ⟨d, hdm, hcc⟩
          · exact hsep2.1 hd
          · exact hsep2.2 d hdm hcc
      have hlm1 : ∀ x ∈ l,
          x ∈ List.foldl (fun m c => (TypeSet_include h fuel m c).2) [] l :=
        fun x hx => foldl_include_adds h fuel hfuel l [] x hx
      obtain ⟨fuel', rfl⟩ : ∃ fuel', fuel = fuel' + 1 := ⟨fuel - 1, by omega⟩
      set m1 := List.foldl (fun m c => (TypeSet_include h (fuel'+1) m c).2) [] l
        with hm1def
      have hval : (TypeSet_include h (fuel'+1) m1 c).2
          = walkUp h (List.foldl (fun a c2 => (TypeSet_include h fuel' a c2).2)
                (c :: m1) (h.subclasses c))
              ((h.chain c).dropLast).reverse := by
        simp [TypeSet_include, hcm1]
      obtain ⟨pre, hpre⟩ := hchainP
      have hlist : ((h.chain c).dropLast).reverse = P :: pre.reverse := by
        rw [hcons c hcchild, List.dropLast_concat, hpre, List.reverse_append]
        simp
      set m2 := List.foldl (fun a c2 => (TypeSet_include h fuel' a c2).2)
          (c :: m1) (h.subclasses c) with hm2def
      have hm1m2 : ∀ y ∈ m1, y ∈ m2 :=
        fun y hy => foldl_include_mono h fuel' _ _ y (List.mem_cons_of_mem _ hy)
      have hcm2 : c ∈ m2 :=
        foldl_include_mono h fuel' _ _ c (List.mem_cons_self _ _)
      have hPm2 : P ∈ walkUp h m2 (P :: pre.reverse) := by
        by_cases hPin : P ∈ m2
        · simp only [walkUp]
          rw [if_pos hPin]
          exact hPin
        · have hallc : ∀ ch ∈ h.subclasses P, ch ∈ m2 := by
            intro ch hch
            have hchc : ch ∈ l ++ [c] := hperm.symm.subset hch
            rcases List.mem_append.mp hchc with hchl | hchr
            · exact hm1m2 ch (hlm1 ch hchl)
            · simp only [List.mem_singleton] at hchr
              subst hchr
              exact hcm2
          simp only [walkUp]
          rw [if_neg hPin, if_pos hallc]
          exact walkUp_mono h _ _ P (List.mem_cons_self _ _)
      have hPfinal : P ∈ (TypeSet_include h (fuel'+1) m1 c).2 := by
        rw [hval, hlist]
        exact hPm2
      refine ⟨hPfinal, ?_⟩
      simp [unmatched_types, hPfinal]
  · intro h fuel1 fuel2 m r
    have hr : r ∈ (TypeSet_include h (fuel1+1) m r).2 :=
      TypeSet_include_mem h (fuel1+1) m r (Nat.succ_pos _)
    simp [unmatched_types, hr]

/-- Witness for C4 on the hierarchy h0: including the three children
1, 2, 3 of the root 0 one by one matches 0 without 0 ever being passed
to include, and unmatched_types on 0 is then empty. -/
theorem C4_upward_propagation_witness :
    (0 : Nat) ∉ [1, 2, 3] ∧
      0 ∈ List.foldl (fun m c => (TypeSet_include h0 1 m c).2) [] [1, 2, 3] ∧
      unmatched_types h0 2
        (List.foldl (fun m c => (TypeSet_include h0 1 m c).2) [] [1, 2, 3]) 0
        = [] :=
  C4_upward_propagation.1 h0 0 1 [1, 2, 3] (by decide)
    (List.Perm.refl _) (by decide) ⟨[], rfl⟩ (by decide) (by decide) (by decide)

end Langkit
